import Mathlib

/-!
# Verification of the Keysight SCPI block-response decoder

Shallow embedding of `KsHook::read` from `src/src/lib.rs` (crate `ks-lxi`).
The byte stream consumed by the decoder is modelled as a `List Nat` of the
bytes that will arrive before end-of-stream.  `read_exact` on a buffer of
size `k` succeeds iff at least `k` bytes remain (a `BufReader<TcpStream>`
blocks until the bytes arrive or the connection closes, which is the
end of the modelled list); `read_until b'\n'` consumes bytes up to and
including the first line feed, or everything remaining at end-of-stream.

Errors are modelled as a closed set of kinds, one per distinct
`io::Error` produced in the source (plus `ioError` for errors propagated
from the underlying stream reads).
-/

/-- The two response variants, `KsData` in the source.  A Rust `String` is
a `Vec<u8>` that is valid UTF-8, so `Text` carries the list of its bytes. -/
inductive KsData : Type
  | Text (s : List Nat)
  | Bin (b : List Nat)
deriving DecidableEq

deriving instance DecidableEq for Except

/-- The distinct failure kinds of `KsHook::read`.  The source reports all of
them as `io::Error` values distinguished by message; `ioError` stands for
errors propagated unchanged from the stream reads themselves. -/
inductive DecodeError : Type
  | ioError
  | invalidText
  | invalidLengthDigitCount
  | invalidLengthField
  | trailingGarbage
deriving DecidableEq

/-- `remove_newline` from the source: pop the last byte; if it is `\n` pop
the next and keep it popped only when it is `\r`, otherwise push back. -/
def remove_newline (text : List Nat) : List Nat :=
  if text.getLast? = some 10 then
    let t := text.dropLast
    if t.getLast? = some 13 then t.dropLast else t
  else
    text

/-- `BufRead::read_until(b'\n')`: the bytes consumed (up to and including
the first line feed, or everything at end-of-stream) and the rest. -/
def readUntil (s : List Nat) : List Nat × List Nat :=
  match s with
  | [] => ([], [])
  | b :: rest =>
    if b = 10 then ([10], rest)
    else
      let (l, r) := readUntil rest
      (b :: l, r)

/-- `(b as char).to_digit(10)` for a byte `b`: its value as a decimal digit. -/
def toDigit10 (b : Nat) : Option Nat :=
  if 48 ≤ b ∧ b ≤ 57 then some (b - 48) else none

def isAsciiDigit (b : Nat) : Bool := 48 ≤ b && b ≤ 57

/-- Value of a list of ASCII digit bytes read as a decimal numeral. -/
def digitsVal (l : List Nat) : Nat := l.foldl (fun a d => a * 10 + (d - 48)) 0

/-- Models `String::from_utf8_lossy(&buf).parse::<usize>()` on a 64-bit
target: an optional leading `+` sign followed by one or more ASCII decimal
digits whose value fits in `usize`.  Any other byte (including bytes that
the lossy conversion turns into U+FFFD) makes the parse fail. -/
def parseUsize (l : List Nat) : Option Nat :=
  let ds := if l.head? = some 43 then l.tail else l
  if ds ≠ [] ∧ ds.all isAsciiDigit ∧ digitsVal ds < 2 ^ 64 then
    some (digitsVal ds)
  else
    none

/-- A UTF-8 continuation byte, `0x80`–`0xBF`. -/
def isUtf8Cont (b : Nat) : Bool := 128 ≤ b && b ≤ 191

/-- UTF-8 validity checker (the DFA of Unicode Table 3-7, which is exactly
what `String::from_utf8` accepts).  `pending` is the list of inclusive
bounds the next bytes must satisfy to finish the current scalar value. -/
def utf8ValidAux : List Nat → List (Nat × Nat) → Bool
  | [], pending => pending.isEmpty
  | b :: rest, (lo, hi) :: pending =>
    (lo ≤ b && b ≤ hi) && utf8ValidAux rest pending
  | b :: rest, [] =>
    if b ≤ 127 then utf8ValidAux rest []
    else if 194 ≤ b && b ≤ 223 then utf8ValidAux rest [(128, 191)]
    else if b = 224 then utf8ValidAux rest [(160, 191), (128, 191)]
    else if (225 ≤ b && b ≤ 236) || b = 238 || b = 239 then
      utf8ValidAux rest [(128, 191), (128, 191)]
    else if b = 237 then utf8ValidAux rest [(128, 159), (128, 191)]
    else if b = 240 then utf8ValidAux rest [(144, 191), (128, 191), (128, 191)]
    else if 241 ≤ b && b ≤ 243 then
      utf8ValidAux rest [(128, 191), (128, 191), (128, 191)]
    else if b = 244 then utf8ValidAux rest [(128, 143), (128, 191), (128, 191)]
    else false

/-- `String::from_utf8(buf).is_ok()` for a byte list. -/
def utf8Valid (l : List Nat) : Bool := utf8ValidAux l []

/-- `KsHook::read` from the source, line by line.  Returns the decode
result together with the bytes left unconsumed on the stream.

* lead byte `≠ '#'` (35): ASCII format — `read_until(b'\n')` appends to the
  buffer already holding the lead byte, `remove_newline` strips the
  terminator, and the bytes must be valid UTF-8;
* lead byte `= '#'`: binary format — one digit-count byte checked by
  `to_digit(10)`, `k` length-field bytes parsed by
  `from_utf8_lossy(..).parse::<usize>()`, `n` payload bytes, then
  `read_until(b'\n')` whose yield after `remove_newline` must be empty. -/
def ksRead (s : List Nat) : Except DecodeError KsData × List Nat :=
  match s with
  | [] => (.error .ioError, [])
  | b0 :: r0 =>
    if b0 ≠ 35 then
      let (line, r1) := readUntil r0
      let buf := remove_newline (b0 :: line)
      if utf8Valid buf then (.ok (.Text buf), r1) else (.error .invalidText, r1)
    else
      match r0 with
      | [] => (.error .ioError, [])
      | b1 :: r1 =>
        match toDigit10 b1 with
        | none => (.error .invalidLengthDigitCount, r1)
        | some k =>
          if r1.length < k then (.error .ioError, [])
          else
            let lenField := r1.take k
            let r2 := r1.drop k
            match parseUsize lenField with
            | none => (.error .invalidLengthField, r2)
            | some n =>
              if r2.length < n then (.error .ioError, [])
              else
                let payload := r2.take n
                let r3 := r2.drop n
                let (e, r4) := readUntil r3
                if remove_newline e ≠ [] then (.error .trailingGarbage, r4)
                else (.ok (.Bin payload), r4)

/-- ASCII decimal digits of `n`, as bytes (`str(n)` in the framing). -/
def natToDigits (n : Nat) : List Nat :=
  if h : n < 10 then [48 + n]
  else natToDigits (n / 10) ++ [48 + n % 10]
decreasing_by exact Nat.div_lt_self (by omega) (by omega)

/-- The inverse framing rule: a text line is its bytes plus a line feed; a
binary block is `#`, the digit count of `str(n)`, `str(n)`, the payload,
and a line feed. -/
def ksEncode : KsData → List Nat
  | .Text t => t ++ [10]
  | .Bin p =>
    35 :: (48 + (natToDigits p.length).length) :: (natToDigits p.length ++ (p ++ [10]))

/-- Values representable in the wire framing so that decoding can return
them: a text line must be valid UTF-8 (the Rust `String` invariant), must
not contain the line feed that terminates it, must not begin with the `#`
that switches the decoder to binary format, and must not end in a carriage
return (which the terminator stripping would eat); a binary payload length
must be writable with at most nine length digits. -/
def encodable : KsData → Prop
  | .Text t => utf8Valid t = true ∧ 10 ∉ t ∧ t.head? ≠ some 35 ∧ t.getLast? ≠ some 13
  | .Bin p => p.length < 10 ^ 9

/-! ## Helper lemmas about the stream primitives -/

theorem readUntil_no_ten {a : List Nat} (h : 10 ∉ a) : readUntil a = (a, []) := by
  induction a with
  | nil => rfl
  | cons x xs ih =>
    have hx : x ≠ 10 := fun hx => h (hx ▸ List.mem_cons_self x xs)
    have h' : 10 ∉ xs := fun hm => h (List.mem_cons_of_mem _ hm)
    simp [readUntil, hx, ih h']

theorem readUntil_concat_ten {a : List Nat} (r : List Nat) (h : 10 ∉ a) :
    readUntil (a ++ 10 :: r) = (a ++ [10], r) := by
  induction a with
  | nil => simp [readUntil]
  | cons x xs ih =>
    have hx : x ≠ 10 := fun hx => h (hx ▸ List.mem_cons_self x xs)
    have h' : 10 ∉ xs := fun hm => h (List.mem_cons_of_mem _ hm)
    simp [readUntil, hx, ih h']

theorem getLast?_ne_of_not_mem {t : List Nat} {b : Nat} (h : b ∉ t) :
    t.getLast? ≠ some b :=
  fun hc => h (List.mem_of_getLast?_eq_some hc)

theorem remove_newline_concat_ten {t : List Nat} (h : t.getLast? ≠ some 13) :
    remove_newline (t ++ [10]) = t := by
  simp [remove_newline, List.getLast?_concat, List.dropLast_concat, h]

theorem remove_newline_concat_crlf (t : List Nat) :
    remove_newline (t ++ [13, 10]) = t := by
  have h1 : t ++ [13, 10] = (t ++ [13]) ++ [10] := by simp
  rw [h1]
  simp [remove_newline, List.getLast?_concat, List.dropLast_concat]

theorem remove_newline_no_ten {t : List Nat} (h : t.getLast? ≠ some 10) :
    remove_newline t = t := by
  simp [remove_newline, h]

/-! ## Helper lemmas about the decimal digits of a length -/

theorem natToDigits_ne_nil (n : Nat) : natToDigits n ≠ [] := by
  rw [natToDigits]
  split <;> simp

theorem natToDigits_mem : ∀ n, ∀ d ∈ natToDigits n, 48 ≤ d ∧ d ≤ 57 := by
  intro n
  induction n using Nat.strong_induction_on with
  | _ n ih =>
    intro d hd
    rw [natToDigits] at hd
    by_cases h10 : n < 10
    · simp [h10] at hd
      omega
    · simp [h10, List.mem_append] at hd
      rcases hd with hd | hd
      · exact ih (n / 10) (Nat.div_lt_self (by omega) (by omega)) d hd
      · omega

theorem digitsVal_aux : ∀ n acc : Nat,
    List.foldl (fun a d => a * 10 + (d - 48)) acc (natToDigits n) =
      acc * 10 ^ (natToDigits n).length + n := by
  intro n
  induction n using Nat.strong_induction_on with
  | _ n ih =>
    intro acc
    by_cases h10 : n < 10
    · rw [natToDigits]
      simp [h10, List.foldl]
    · have hnd : natToDigits n = natToDigits (n / 10) ++ [48 + n % 10] := by
        rw [natToDigits]
        simp [h10]
      rw [hnd, List.foldl_append, ih (n / 10) (Nat.div_lt_self (by omega) (by omega)) acc]
      simp only [List.foldl, List.length_append, List.length_cons, List.length_nil]
      rw [pow_succ, ← mul_assoc]
      generalize acc * 10 ^ (natToDigits (n / 10)).length = A
      omega

theorem digitsVal_natToDigits (n : Nat) : digitsVal (natToDigits n) = n := by
  have := digitsVal_aux n 0
  simpa [digitsVal] using this

theorem natToDigits_length_le : ∀ k n, n < 10 ^ (k + 1) → (natToDigits n).length ≤ k + 1 := by
  intro k
  induction k with
  | zero =>
    intro n h
    have h' : n < 10 := by simpa using h
    rw [natToDigits]
    simp [h']
  | succ k ih =>
    intro n h
    rw [natToDigits]
    by_cases h10 : n < 10
    · simp [h10]
    · have hdiv : n / 10 < 10 ^ (k + 1) := by
        rw [Nat.div_lt_iff_lt_mul (by norm_num)]
        calc n < 10 ^ (k + 1 + 1) := h
          _ = 10 ^ (k + 1) * 10 := by rw [pow_succ]
      have := ih (n / 10) hdiv
      simp [h10, List.length_append]
      omega

theorem parseUsize_natToDigits {n : Nat} (h : n < 2 ^ 64) :
    parseUsize (natToDigits n) = some n := by
  have hne := natToDigits_ne_nil n
  have hhead : (natToDigits n).head? ≠ some 43 := by
    cases heq : natToDigits n with
    | nil => simp
    | cons d ds =>
      have hd : d ∈ natToDigits n := by
        rw [heq]
        exact List.mem_cons_self d ds
      have := natToDigits_mem n d hd
      simp
      omega
  have hall : (natToDigits n).all isAsciiDigit = true := by
    rw [List.all_eq_true]
    intro x hx
    have := natToDigits_mem n x hx
    simp [isAsciiDigit]
    omega
  have hvlt : digitsVal (natToDigits n) < 2 ^ 64 := by
    rw [digitsVal_natToDigits]
    exact h
  simp only [parseUsize]
  rw [if_neg hhead, if_pos ⟨hne, hall, hvlt⟩, digitsVal_natToDigits]

theorem toDigit10_of_digit {m : Nat} (h : m ≤ 9) : toDigit10 (48 + m) = some m := by
  simp only [toDigit10]
  rw [if_pos ⟨by omega, by omega⟩]
  simp

/-! ## The two decode paths, in general form -/

/-- Binary path of `KsHook::read`: lead byte `#`, a digit-count byte worth
`k`, a `k`-byte length field parsing to `n`, an `n`-byte payload, and then
whatever `read_until(b'\n')` yields from the remaining stream. -/
theorem ksRead_bin_path {kb k n : Nat} {lf payload tail e r : List Nat}
    (hkb : toDigit10 kb = some k) (hlf : lf.length = k)
    (hpar : parseUsize lf = some n) (hpl : payload.length = n)
    (hru : readUntil tail = (e, r)) :
    ksRead (35 :: kb :: (lf ++ (payload ++ tail))) =
      if remove_newline e ≠ [] then (.error .trailingGarbage, r)
      else (.ok (.Bin payload), r) := by
  have hlen1 : ¬((lf ++ (payload ++ tail)).length < k) := by
    simp [List.length_append]
    omega
  have htake1 : (lf ++ (payload ++ tail)).take k = lf := List.take_left' hlf
  have hdrop1 : (lf ++ (payload ++ tail)).drop k = payload ++ tail := List.drop_left' hlf
  have hlen2 : ¬((payload ++ tail).length < n) := by
    simp [List.length_append]
    omega
  have htake2 : (payload ++ tail).take n = payload := List.take_left' hpl
  have hdrop2 : (payload ++ tail).drop n = tail := List.drop_left' hpl
  simp only [ksRead, hkb, htake1, hdrop1, hpar, htake2, hdrop2, hru, if_neg hlen1,
    if_neg hlen2, ne_eq, not_true_eq_false, if_false, ite_not]

/-- Text path of `KsHook::read` for a well-formed line: a lead byte other
than `#`, content free of line feeds, a `\n` or `\r\n` terminator. -/
theorem ksRead_text_path {t term : List Nat}
    (hterm : term = [10] ∨ term = [13, 10]) (h10 : 10 ∉ t)
    (hcr : term = [10] → t.getLast? ≠ some 13)
    (h35 : t.head? ≠ some 35) (hutf : utf8Valid t = true) :
    ksRead (t ++ term) = (.ok (.Text t), []) := by
  rcases hterm with hterm | hterm <;> subst hterm
  · cases t with
    | nil => decide
    | cons a t' =>
      have ha : a ≠ 35 := by
        simp at h35
        exact h35
      have h10' : 10 ∉ t' := fun hm => h10 (List.mem_cons_of_mem _ hm)
      have hru : readUntil (t' ++ [10]) = (t' ++ [10], []) := readUntil_concat_ten [] h10'
      have hrn : remove_newline ((a :: t') ++ [10]) = a :: t' :=
        remove_newline_concat_ten (hcr rfl)
      simp only [List.cons_append] at hrn
      simp only [List.cons_append, ksRead, if_neg (by simpa using ha), hru, hrn,
        ite_not, hutf]
      simp [ha, hru, hrn, hutf]
  · cases t with
    | nil => decide
    | cons a t' =>
      have ha : a ≠ 35 := by
        simp at h35
        exact h35
      have h10' : 10 ∉ t' ++ [13] := by
        intro hm
        rcases List.mem_append.1 hm with hm | hm
        · exact h10 (List.mem_cons_of_mem _ hm)
        · simp at hm
      have hsh : t' ++ [13, 10] = (t' ++ [13]) ++ 10 :: [] := by simp
      have hru : readUntil (t' ++ [13, 10]) = ((t' ++ [13]) ++ [10], []) := by
        rw [hsh]
        exact readUntil_concat_ten [] h10'
      have hrn : remove_newline ((a :: t') ++ [13, 10]) = a :: t' :=
        remove_newline_concat_crlf (a :: t')
      simp only [List.cons_append] at hrn
      have hru' : readUntil (t' ++ [13, 10]) = (t' ++ [13, 10], []) := by
        rw [hru]
        simp
      simp [ksRead, ha, hru', hrn, hutf]

/-- A well-framed binary block `#<len(str(n))><str(n)><payload>\n` decodes
to its payload, for any payload whose length has at most nine digits. -/
theorem bin_block_decodes (p : List Nat) (h : p.length < 10 ^ 9) :
    ksRead (35 :: (48 + (natToDigits p.length).length) ::
      (natToDigits p.length ++ (p ++ [10]))) = (.ok (.Bin p), []) := by
  have h9 : (natToDigits p.length).length ≤ 9 :=
    natToDigits_length_le 8 p.length (by simpa using h)
  have hkb := toDigit10_of_digit h9
  have hpar : parseUsize (natToDigits p.length) = some p.length :=
    parseUsize_natToDigits (lt_of_lt_of_le h (by norm_num))
  have key := @ksRead_bin_path (48 + (natToDigits p.length).length)
    (natToDigits p.length).length p.length (natToDigits p.length) p [10] [10] []
    hkb rfl hpar rfl rfl
  have hrm : remove_newline [10] = ([] : List Nat) := by decide
  simpa [hrm] using key

/-! ## The claims -/

/-- C1: for every payload `p` — line-feed bytes included — whose length `n`
is expressible in the framing (`len(str(n))` is a single digit, i.e.
`n < 10^9`), decoding the stream `#`, the digit `len(str(n))`, the decimal
digits `str(n)`, the `n` bytes of `p`, and a line feed succeeds and
returns `Bin p` byte-for-byte, consuming the entire stream. -/
theorem C1_definite_block_decodes (p : List Nat) (h : p.length < 10 ^ 9) :
    ksRead (35 :: (48 + (natToDigits p.length).length) ::
      (natToDigits p.length ++ (p ++ [10]))) = (.ok (.Bin p), []) :=
  bin_block_decodes p h

/-- C1 witness: the spec scenario `#14\x00\xff\x0a\x80\n` decodes to
`Bin [0, 255, 10, 128]`, by `C1_definite_block_decodes` at that payload. -/
theorem C1_witness :
    ksRead [35, 49, 52, 0, 255, 10, 128, 10] = (.ok (.Bin [0, 255, 10, 128]), []) := by
  have h4 : natToDigits 4 = [52] := by
    rw [natToDigits]
    norm_num
  have key := C1_definite_block_decodes [0, 255, 10, 128] (by norm_num)
  simpa [h4] using key

/-- C2 counterexample: `s = "a\nb\n"` does not start with `#`, ends in a
line feed, and its content with the terminator stripped is the valid UTF-8
sequence `"a\nb"`; yet decoding returns `Text "a"`, stopping at the first
line feed, not `Text "a\nb"`. -/
theorem C2_counterexample :
    ksRead [97, 10, 98, 10] = (.ok (.Text [97]), [98, 10]) ∧
      remove_newline [97, 10, 98, 10] = [97, 10, 98] ∧
      KsData.Text [97] ≠ KsData.Text [97, 10, 98] := by decide

/-- C2 (amended): for every byte sequence `s = t ++ term` with terminator
`term` a bare `\n` or `\r\n`, whose content `t` contains no line feed (so
the terminator's line feed is the first one in `s`), does not end in a
carriage return when the terminator is a bare `\n`, does not start with
`#`, and is valid UTF-8, decoding `s` returns `Text t` with exactly the
terminator removed and every content byte preserved unchanged. -/
theorem C2_text_line_decodes (t term : List Nat)
    (hterm : term = [10] ∨ term = [13, 10]) (h10 : 10 ∉ t)
    (hcr : term = [10] → t.getLast? ≠ some 13)
    (h35 : t.head? ≠ some 35) (hutf : utf8Valid t = true) :
    ksRead (t ++ term) = (.ok (.Text t), []) :=
  ksRead_text_path hterm h10 hcr h35 hutf

/-- C2 witness: `b"Emulator\n"` decodes to `Text "Emulator"`, by
`C2_text_line_decodes` at that content and a bare line-feed terminator. -/
theorem C2_witness :
    ksRead ([69, 109, 117, 108, 97, 116, 111, 114] ++ [10]) =
      (.ok (.Text [69, 109, 117, 108, 97, 116, 111, 114]), []) :=
  C2_text_line_decodes [69, 109, 117, 108, 97, 116, 111, 114] [10]
    (Or.inl rfl) (by decide) (by decide) (by decide) (by decide)

/-- C3 counterexample: decoding `#0\n` fails with `invalidLengthField` —
it does not proceed to read a zero-byte payload. -/
theorem C3_counterexample :
    ksRead [35, 48, 10] = (.error .invalidLengthField, [10]) := by decide

/-- C3 (amended): a digit-count byte `'0'` passes the digit check and
declares a zero-length length field; the empty length field then fails the
`usize` parse, so decoding always fails with `invalidLengthField` (for any
remaining stream) instead of proceeding to a zero-byte payload with
`n = 0`. -/
theorem C3_zero_digit_count (rest : List Nat) :
    ksRead (35 :: 48 :: rest) = (.error .invalidLengthField, rest) := by
  simp [ksRead, toDigit10, parseUsize]

/-- C4 counterexample: `Text "#"` is a legal `KsData` value (its byte is
valid UTF-8), but encoding it with the inverse framing rule and decoding
the result yields `invalidLengthDigitCount`, not the original value. -/
theorem C4_counterexample :
    utf8Valid [35] = true ∧
      ksRead (ksEncode (.Text [35])) = (.error .invalidLengthDigitCount, []) := by decide

/-- C4 (amended): encoding with the inverse framing rule then decoding
reproduces the value exactly, for every value the framing can represent:
`Text t` with `t` valid UTF-8, free of line feeds, not starting with `#`,
and not ending in a carriage return; `Bin p` with `p.length < 10^9`. -/
theorem C4_roundtrip (v : KsData) (h : encodable v) :
    ksRead (ksEncode v) = (.ok v, []) := by
  cases v with
  | Text t =>
    obtain ⟨hutf, h10, h35, hcr⟩ := h
    exact ksRead_text_path (Or.inl rfl) h10 (fun _ => hcr) h35 hutf
  | Bin p =>
    simp only [ksEncode]
    exact bin_block_decodes p h

/-- C4 witness: the round trip at `Text "Emulator"` and at
`Bin [0, 255, 10, 128]`, by `C4_roundtrip`. -/
theorem C4_witness :
    ksRead (ksEncode (.Text [69, 109, 117, 108, 97, 116, 111, 114])) =
      (.ok (.Text [69, 109, 117, 108, 97, 116, 111, 114]), []) ∧
      ksRead (ksEncode (.Bin [0, 255, 10, 128])) = (.ok (.Bin [0, 255, 10, 128]), []) :=
  ⟨C4_roundtrip (.Text [69, 109, 117, 108, 97, 116, 111, 114])
      (by simp only [encodable]; exact ⟨by decide, by decide, by decide, by decide⟩),
   C4_roundtrip (.Bin [0, 255, 10, 128]) (by simp only [encodable]; decide)⟩

/-- C5: whenever a well-formed binary block header and payload are
followed by bytes whose `read_until(b'\n')` yield is nonempty after
stripping the trailing `\n` / `\r\n`, decoding fails with
`trailingGarbage` and never returns a `Bin` value. -/
theorem C5_trailing_garbage {kb k n : Nat} {lf payload tail e r : List Nat}
    (hkb : toDigit10 kb = some k) (hlf : lf.length = k)
    (hpar : parseUsize lf = some n) (hpl : payload.length = n)
    (hru : readUntil tail = (e, r)) (hg : remove_newline e ≠ []) :
    ksRead (35 :: kb :: (lf ++ (payload ++ tail))) = (.error .trailingGarbage, r) := by
  rw [ksRead_bin_path hkb hlf hpar hpl hru, if_pos hg]

/-- C5 witness: `#14<4 bytes>XY\n` fails with `trailingGarbage`, by
`C5_trailing_garbage`. -/
theorem C5_witness :
    ksRead (35 :: 49 :: ([52] ++ ([0, 255, 10, 128] ++ [88, 89, 10]))) =
      (.error .trailingGarbage, []) :=
  @C5_trailing_garbage 49 1 4 [52] [0, 255, 10, 128] [88, 89, 10] [88, 89, 10] []
    (by decide) rfl (by decide) rfl (by decide) (by decide)

/-- C6: if the lead byte is `#` and the next byte is not an ASCII decimal
digit, decoding fails with `invalidLengthDigitCount`, and exactly the two
bytes `#` and the malformed digit-count byte have been consumed — the rest
of the stream is untouched. -/
theorem C6_invalid_digit_count (b : Nat) (rest : List Nat) (h : ¬(48 ≤ b ∧ b ≤ 57)) :
    ksRead (35 :: b :: rest) = (.error .invalidLengthDigitCount, rest) := by
  simp [ksRead, toDigit10, h]

/-- C6 witness: `#A` followed by two more bytes fails with
`invalidLengthDigitCount` leaving those bytes unread, by
`C6_invalid_digit_count`. -/
theorem C6_witness :
    ksRead [35, 65, 1, 2] = (.error .invalidLengthDigitCount, [1, 2]) :=
  C6_invalid_digit_count 65 [1, 2] (by decide)

/-- C7: decoding the exact bytes `#10\n` succeeds with the empty binary
payload — a declared length of zero is legal. -/
theorem C7_empty_block : ksRead [35, 49, 48, 10] = (.ok (.Bin []), []) := by decide

/-- C8: if the stream ends before the `n` declared payload bytes arrive,
decoding fails with the propagated `ioError` — never with a truncated
`Bin` value and never with any framing `DecodeError` kind. -/
theorem C8_short_payload_io_error {kb k n : Nat} {lf sp : List Nat}
    (hkb : toDigit10 kb = some k) (hlf : lf.length = k)
    (hpar : parseUsize lf = some n) (hshort : sp.length < n) :
    ksRead (35 :: kb :: (lf ++ sp)) = (.error .ioError, []) := by
  have hlen1 : ¬((lf ++ sp).length < k) := by
    simp [List.length_append]
    omega
  have htake1 : (lf ++ sp).take k = lf := List.take_left' hlf
  have hdrop1 : (lf ++ sp).drop k = sp := List.drop_left' hlf
  simp only [ksRead, hkb, htake1, hdrop1, hpar, if_neg hlen1, if_pos hshort,
    ne_eq, not_true_eq_false, if_false]

/-- C8 witness: `#14ab` (payload cut off after two of four bytes) fails
with `ioError`, by `C8_short_payload_io_error`. -/
theorem C8_witness :
    ksRead (35 :: 49 :: ([52] ++ [97, 98])) = (.error .ioError, []) :=
  @C8_short_payload_io_error 49 1 4 [52] [97, 98] (by decide) rfl (by decide) (by decide)

/-- C9: a missing line terminator at end-of-stream is accepted — a
non-empty stream of valid UTF-8 bytes not starting with `#` and containing
no line feed decodes to `Text` of exactly those bytes, and a binary block
whose payload is followed directly by end-of-stream decodes to `Bin` of
the payload rather than an error. -/
theorem C9_eof_without_terminator :
    (∀ s : List Nat, s ≠ [] → s.head? ≠ some 35 → 10 ∉ s → utf8Valid s = true →
      ksRead s = (.ok (.Text s), [])) ∧
    (∀ (kb k n : Nat) (lf payload : List Nat), toDigit10 kb = some k →
      lf.length = k → parseUsize lf = some n → payload.length = n →
      ksRead (35 :: kb :: (lf ++ payload)) = (.ok (.Bin payload), [])) := by
  constructor
  · intro s hne h35 h10 hutf
    cases s with
    | nil => exact absurd rfl hne
    | cons a t =>
      have ha : a ≠ 35 := by
        simp at h35
        exact h35
      have h10' : 10 ∉ t := fun hm => h10 (List.mem_cons_of_mem _ hm)
      have hru : readUntil t = (t, []) := readUntil_no_ten h10'
      have hrn : remove_newline (a :: t) = a :: t :=
        remove_newline_no_ten (getLast?_ne_of_not_mem h10)
      simp [ksRead, ha, hru, hrn, hutf]
  · intro kb k n lf payload hkb hlf hpar hpl
    have key := @ksRead_bin_path kb k n lf payload [] [] [] hkb hlf hpar hpl rfl
    have hrm : remove_newline [] = ([] : List Nat) := rfl
    simpa [hrm] using key

/-- C9 witness: `b"Em"` with no newline decodes to `Text "Em"`, and
`#12<2 bytes>` with no newline decodes to `Bin [7, 8]`, by
`C9_eof_without_terminator`. -/
theorem C9_witness :
    ksRead [69, 109] = (.ok (.Text [69, 109]), []) ∧
      ksRead (35 :: 49 :: ([50] ++ [7, 8])) = (.ok (.Bin [7, 8]), []) :=
  ⟨C9_eof_without_terminator.1 [69, 109] (by decide) (by decide) (by decide) (by decide),
   C9_eof_without_terminator.2 49 1 2 [50] [7, 8] (by decide) rfl (by decide) rfl⟩

/-- C10: the length field goes through the host `usize` parser, which
accepts a leading `+`: a block `#2+5` declares payload length `5` and
decodes successfully; and a length field the parser rejects is exactly
what yields `invalidLengthField`. -/
theorem C10_plus_sign_length_field :
    (∀ p : List Nat, p.length = 5 →
      ksRead (35 :: 50 :: ([43, 53] ++ (p ++ [10]))) = (.ok (.Bin p), [])) ∧
    (∀ (kb k : Nat) (lf rest : List Nat), toDigit10 kb = some k → lf.length = k →
      parseUsize lf = none →
      ksRead (35 :: kb :: (lf ++ rest)) = (.error .invalidLengthField, rest)) := by
  constructor
  · intro p hp
    have key := @ksRead_bin_path 50 2 5 [43, 53] p [10] [10] []
      (by decide) rfl (by decide) hp rfl
    have hrm : remove_newline [10] = ([] : List Nat) := by decide
    simpa [hrm] using key
  · intro kb k lf rest hkb hlf hrej
    have hlen1 : ¬((lf ++ rest).length < k) := by
      simp [List.length_append]
      omega
    have htake1 : (lf ++ rest).take k = lf := List.take_left' hlf
    have hdrop1 : (lf ++ rest).drop k = rest := List.drop_left' hlf
    simp only [ksRead, hkb, htake1, hdrop1, hrej, if_neg hlen1,
      ne_eq, not_true_eq_false, if_false]

/-- C10 witness: `#2+5<5 bytes>\n` decodes to those five bytes, and `#1A`
fails with `invalidLengthField`, by `C10_plus_sign_length_field`. -/
theorem C10_witness :
    ksRead (35 :: 50 :: ([43, 53] ++ ([1, 2, 3, 4, 5] ++ [10]))) =
      (.ok (.Bin [1, 2, 3, 4, 5]), []) ∧
      ksRead (35 :: 49 :: ([65] ++ [9])) = (.error .invalidLengthField, [9]) :=
  ⟨C10_plus_sign_length_field.1 [1, 2, 3, 4, 5] rfl,
   C10_plus_sign_length_field.2 49 1 [65] [9] (by decide) rfl (by decide)⟩

